import Mathlib

/-!
Verification of the core traversal / hashing / duplicate-detection pipeline
of the fileutils repository (findfiles.py, filehasher.py, filedupes.py).

The filesystem is modelled as a finite tree of nodes.  A file node carries
its byte content (bytes as naturals) and a readability flag (`readable =
false` models a file whose `open`/read raises OSError).  A directory node
carries a `scanOk` flag (`scanOk = false` models a directory whose
`os.scandir` raises OSError).  Both carry an `isLink` flag for symlinks.

Hash algorithms are abstracted: a hash family `H : String → List Nat →
String` maps an algorithm name and a byte sequence to a hex digest string.
All theorems hold for every such family, which is what the code guarantees:
it only ever feeds bytes to `hashlib` and reports the resulting digest.
-/

namespace Fileutils

/-- A node of the modelled filesystem tree. -/
inductive FSNode where
  | file (name : String) (content : List Nat) (isLink : Bool) (readable : Bool)
  | dir (name : String) (isLink : Bool) (scanOk : Bool) (children : List FSNode)

/-- The entry name, as `os.DirEntry.name`. -/
def FSNode.name : FSNode → String
  | .file n _ _ _ => n
  | .dir n _ _ _ => n

/-- A yielded file entry: its full path, its content and whether reading it
succeeds (`os.DirEntry` restricted to what the pipeline consumes). -/
structure Entry where
  path : String
  content : List Nat
  readable : Bool
deriving DecidableEq

/-- `entry.name.startswith('.')` for the single-character dot string:
true exactly when the first character of `s` is `'.'`. -/
def startsWithDot (s : String) : Bool := s.data.head? == some '.'

/-- Shallow embedding of `findfiles.walk_tree` (findfiles.py lines 13-94),
applied to the scanned children of the directory `path`.  Parameters mirror
the Python keyword arguments; `onerror = true` models passing an `onerror`
callback, `onerror = false` models the default `onerror=None`.  The result
is the list of yielded entries together with the list of directory paths
whose scan failure was delivered to the `onerror` callback (`if onerror:
onerror(e)` at lines 92-94 drops the error when no callback was given). -/
def walk_tree (path : String) (excludes : List String)
    (dotfiles symlinks recursive onerror : Bool) :
    List FSNode → List Entry × List String
  | [] => ([], [])
  | FSNode.file nm content lk rd :: rest =>
    let entryPath := path ++ "/" ++ nm
    let r := walk_tree path excludes dotfiles symlinks recursive onerror rest
    if ¬ dotfiles ∧ startsWithDot nm then r
    else if entryPath ∈ excludes ∨ nm ∈ excludes then r
    else if lk ∧ ¬ symlinks then r
    else (⟨entryPath, content, rd⟩ :: r.1, r.2)
  | FSNode.dir nm lk ok children :: rest =>
    let entryPath := path ++ "/" ++ nm
    let r := walk_tree path excludes dotfiles symlinks recursive onerror rest
    if ¬ dotfiles ∧ startsWithDot nm then r
    else if entryPath ∈ excludes ∨ nm ∈ excludes then r
    else if lk ∧ ¬ symlinks then r
    else if recursive then
      if ok then
        let sub := walk_tree entryPath excludes dotfiles symlinks recursive onerror children
        (sub.1 ++ r.1, sub.2 ++ r.2)
      else
        (r.1, (if onerror then [entryPath] else []) ++ r.2)
    else r
termination_by l => sizeOf l
decreasing_by all_goals (simp_wf; try omega)

/-- `filehasher.DEFAULT_ALGORITHM` / `filedupes.DEFAULT_ALGORITHM`. -/
def DEFAULT_ALGORITHM : String := "sha3_256"

/-- The supported algorithm set: `hashlib.algorithms_available` is
platform-dependent but always contains `hashlib.algorithms_guaranteed`,
which is the set modelled here. -/
def algorithms_available : List String :=
  ["md5", "sha1", "sha224", "sha256", "sha384", "sha512",
   "blake2b", "blake2s",
   "sha3_224", "sha3_256", "sha3_384", "sha3_512",
   "shake_128", "shake_256"]

/-- What `hash_file` consumes of a file: its path, whether opening/reading
it succeeds, and its byte content. -/
structure HashInput where
  path : String
  readable : Bool
  content : List Nat
deriving DecidableEq

/-- The two failure modes of `hash_file`: `OSError` while opening/reading
the file, and `ValueError` from `hashlib.new` on an unsupported name. -/
inductive HashError where
  | readError (path : String)
  | unsupported (algorithm : String)
deriving DecidableEq

/-- The `while True: size = infile.readinto(buffer); if not size: break;
hasher.update(view[:size])` loop of `hash_file` (filehasher.py lines
46-53): the bytes fed to the hash accumulator, in order.  Each `readinto`
call on a regular file fills the buffer with `min buffer_size remaining`
bytes; a zero-byte read ends the loop. -/
def feedLoop (buffer_size : Nat) (content : List Nat) : List Nat :=
  let size := min buffer_size content.length
  if size = 0 then []
  else content.take size ++ feedLoop buffer_size (content.drop size)
termination_by content.length
decreasing_by simp_wf; omega

/-- Default `buffer_size` of `hash_file`. -/
def hash_file_default_buffer_size : Nat := 262144

/-- Shallow embedding of `filehasher.hash_file` (filehasher.py lines
18-55).  `H` abstracts hashlib: `H alg bytes` is the hex digest of `bytes`
under algorithm `alg`.  Mirrors the code's order of effects: the falsy
(empty) algorithm name is replaced by the default first, then the file is
opened (OSError), then `hashlib.new` validates the name (ValueError). -/
def hash_file (H : String → List Nat → String) (file : HashInput)
    (algorithm : String) (buffer_size : Nat) : Except HashError String :=
  let alg := if algorithm = "" then DEFAULT_ALGORITHM else algorithm
  if ¬ file.readable then Except.error (HashError.readError file.path)
  else if alg ∈ algorithms_available then
    Except.ok (H alg (feedLoop buffer_size file.content))
  else Except.error (HashError.unsupported alg)

/-- Default of `walk_tree`'s `dotfiles` parameter (findfiles.py line 13). -/
def walk_tree_default_dotfiles : Bool := false

/-- Default of `find_files`'s `dotfiles` parameter (findfiles.py line 98). -/
def find_files_default_dotfiles : Bool := true

/-- Default of `find_dupes`'s `dotfiles` parameter (filedupes.py line 21). -/
def find_dupes_default_dotfiles : Bool := false

/-- Shallow embedding of `findfiles.find_files` (findfiles.py lines
97-151): walk the tree, then filter by the optional compiled pattern
(modelled as a path predicate) and the inclusive size bounds, yielding
paths. -/
def find_files (path : String) (root : List FSNode)
    (compiled_pattern : Option (String → Bool)) (excludes : List String)
    (minsize maxsize : Option Int) (onerror : Bool)
    (dotfiles symlinks recursive : Bool) : List String :=
  (((walk_tree path excludes dotfiles symlinks recursive onerror root).1.filter
    (fun e =>
      (match compiled_pattern with
       | some p => p e.path
       | none => true) &&
      (match minsize with
       | some n => decide (n ≤ (e.content.length : Int))
       | none => true) &&
      (match maxsize with
       | some m => decide ((e.content.length : Int) ≤ m)
       | none => true))).map Entry.path)

/-- Shallow embedding of `filehasher.hash_dir` (filehasher.py lines
58-70): hash every walked file, pairing each path with its digest result.
`walk_tree` is called with only `recursive` overridden, so all other
traversal options keep their defaults.  (In Python a read failure raises
out of the generator; here the per-file result is kept inline.) -/
def hash_dir (H : String → List Nat → String) (path : String)
    (root : List FSNode) (algorithm : String) (recursive : Bool) :
    List (String × Except HashError String) :=
  (walk_tree path [] false false recursive false root).1.map
    (fun e => (e.path,
      hash_file H ⟨e.path, e.readable, e.content⟩ algorithm
        hash_file_default_buffer_size))

/-- `hashes[digest].append(entry.path)` on a `defaultdict(list)`, modelled
on an insertion-ordered association list (Python dicts preserve insertion
order): append to the existing key's list, or append a new key at the
end. -/
def addPair (m : List (String × List String)) (digest path : String) :
    List (String × List String) :=
  match m with
  | [] => [(digest, [path])]
  | (k, v) :: rest =>
    if k = digest then (k, v ++ [path]) :: rest
    else (k, v) :: addPair rest digest path

/-- The accumulation loop of `find_dupes` (filedupes.py lines 50-57): hash
each entry; on `OSError` print and continue (the entry is skipped); a
`ValueError` from an unsupported algorithm is not caught and aborts the
loop. -/
def dupesLoop (H : String → List Nat → String) (algorithm : String) :
    List Entry → List (String × List String) →
    Except String (List (String × List String))
  | [], m => Except.ok m
  | e :: rest, m =>
    match hash_file H ⟨e.path, e.readable, e.content⟩ algorithm
        hash_file_default_buffer_size with
    | Except.ok d => dupesLoop H algorithm rest (addPair m d e.path)
    | Except.error (HashError.readError _) => dupesLoop H algorithm rest m
    | Except.error (HashError.unsupported a) => Except.error a

/-- Shallow embedding of `filedupes.find_dupes` (filedupes.py lines
20-60): replace a falsy algorithm by the default, walk the tree (note:
`recursive=True` and no `onerror` callback), hash every file, and return
the sub-dictionary of digests with two or more paths. -/
def find_dupes (H : String → List Nat → String) (directory : String)
    (root : List FSNode) (algorithm : String) (excludes : List String)
    (dotfiles symlinks : Bool) :
    Except String (List (String × List String)) :=
  let alg := if algorithm = "" then DEFAULT_ALGORITHM else algorithm
  match dupesLoop H alg
      (walk_tree directory excludes dotfiles symlinks true false root).1 [] with
  | Except.ok m => Except.ok (m.filter (fun kv => kv.2.length > 1))
  | Except.error a => Except.error a

/-- The size-option arguments of `findfiles.main`. -/
structure SizeArgs where
  exactsize : Option Int
  minsize : Option Int
  maxsize : Option Int
deriving DecidableEq

/-- Python truthiness of an optional integer argument: `None` and `0` are
falsy. -/
def optTruthy : Option Int → Bool
  | none => false
  | some x => x != 0

/-- Shallow embedding of the exact-size handling of `findfiles.main`
(findfiles.py lines 226-230): `if args.exactsize:` uses truthiness, and on
conflict with `minsize`/`maxsize` `parser.error` aborts before any
traversal. -/
def applyExactSize (a : SizeArgs) : Except String SizeArgs :=
  if optTruthy a.exactsize then
    if a.minsize.isSome || a.maxsize.isSome then
      Except.error "Cannot use --size with --minsize/--maxsize"
    else Except.ok ⟨a.exactsize, a.exactsize, a.exactsize⟩
  else Except.ok a

/-- The (path, digest) pairs the `find_dupes` loop successfully produces
from a list of walked entries, in traversal order: unreadable files are
skipped (their `OSError` is caught at filedupes.py lines 56-57), every
other file contributes the digest of its content under the configured
algorithm. -/
def digestPairs (H : String → List Nat → String) (algorithm : String)
    (entries : List Entry) : List (String × String) :=
  (entries.filter (fun e => e.readable)).map
    (fun e => (e.path, H algorithm e.content))

/-- The paths carrying digest `d` among the (path, digest) pairs `ps`, in
order. -/
def pathsOf (ps : List (String × String)) (d : String) : List String :=
  (ps.filter (fun q => decide (q.2 = d))).map Prod.fst

/-- The digests of `ps` in order of first occurrence (the key order of an
insertion-ordered dictionary fed with `ps`). -/
def keysOf : List (String × String) → List String
  | [] => []
  | (_, d) :: rest => d :: (keysOf rest).filter (fun k => decide (¬ k = d))

/-- The plain accumulation loop underlying `dupesLoop`: insert each
(path, digest) pair into the insertion-ordered dictionary. -/
def groupPairs : List (String × String) → List (String × List String) →
    List (String × List String)
  | [], m => m
  | (p, d) :: rest, m => groupPairs rest (addPair m d p)

/-- A concrete hash family used in concrete evaluations: the digest is the
decimal length of the input.  (It distinguishes exactly the byte sequences
of different lengths, as every real digest family distinguishes the
concrete inputs used with it below.) -/
def HLen : String → List Nat → String := fun _ bs => toString bs.length

/-- Concrete tree: a subdirectory `d` (holding file `a`) listed before a
regular file `b`. -/
def dirBeforeFileTree : List FSNode :=
  [FSNode.dir "d" false true [FSNode.file "a" [1] false true],
   FSNode.file "b" [2] false true]

/-- Concrete tree: files `x` and `y` around a subdirectory `bad` whose
scan raises `OSError`. -/
def badSubdirTree : List FSNode :=
  [FSNode.file "x" [0] false true,
   FSNode.dir "bad" false false [FSNode.file "inner" [1] false true],
   FSNode.file "y" [0] false true]

/-- Concrete tree: one hidden file `.secret` and one visible file
`visible.txt`. -/
def dotfileTree : List FSNode :=
  [FSNode.file ".secret" [9] false true,
   FSNode.file "visible.txt" [1] false true]

/-- Concrete tree: `a.txt` and `b.txt` with equal content, `c.txt` with
different content. -/
def helloTree : List FSNode :=
  [FSNode.file "a.txt" [5] false true,
   FSNode.file "b.txt" [5] false true,
   FSNode.file "c.txt" [7, 7] false true]

/-! ## Helper lemmas -/

theorem feedLoop_bounded (b : Nat) (hb : 0 < b) :
    ∀ (n : Nat) (content : List Nat), content.length ≤ n →
      feedLoop b content = content := by
  intro n
  induction n with
  | zero =>
    intro c hc
    have hc0 : c = [] := List.length_eq_zero.mp (Nat.le_zero.mp hc)
    subst hc0
    rw [feedLoop]
    simp
  | succ n ih =>
    intro c hc
    rw [feedLoop]
    by_cases h : min b c.length = 0
    · have hc0 : c = [] := List.length_eq_zero.mp (by omega)
      subst hc0
      simp
    · rw [if_neg h]
      rw [ih (c.drop (min b c.length)) (by simp; omega)]
      exact List.take_append_drop _ _

/-- With a positive buffer size the read loop feeds exactly the file's
content to the hash accumulator. -/
theorem feedLoop_eq (b : Nat) (hb : 0 < b) (content : List Nat) :
    feedLoop b content = content :=
  feedLoop_bounded b hb content.length content le_rfl

/-! ## C4: digest independence from the chunk size -/

/-- C4 (counterexample): the claim quantifies over every pair of chunk
sizes, but with `buffer_size = 0` the first `readinto` fills zero bytes
and the loop exits immediately, so `hash_file` returns the digest of the
empty byte sequence: on one-byte content the digests for buffer sizes 0
and 1 differ (exhibited with the length-digest family `HLen`). -/
theorem C4_zero_buffer_counterexample :
    hash_file HLen ⟨"/f", true, [97]⟩ "sha3_256" 0 = Except.ok "0" ∧
    hash_file HLen ⟨"/f", true, [97]⟩ "sha3_256" 1 = Except.ok "1" ∧
    hash_file HLen ⟨"/f", true, [97]⟩ "sha3_256" 0 ≠
      hash_file HLen ⟨"/f", true, [97]⟩ "sha3_256" 1 := by
  have h0 : feedLoop 0 [97] = [] := by rw [feedLoop]; simp
  have h1 : feedLoop 1 [97] = [97] := feedLoop_eq 1 (by decide) [97]
  refine ⟨?_, ?_, ?_⟩ <;>
    simp [hash_file, h0, h1, HLen, algorithms_available] <;> decide

/-- C4 (amended): for every hash family, file, algorithm and every pair of
POSITIVE chunk sizes, `hash_file` returns the same result; the buffer size
never changes the digest.  (With chunk size 0 the loop reads nothing and
the digest of empty content is returned instead.) -/
theorem C4_buffer_size_never_changes_digest
    (H : String → List Nat → String) (file : HashInput) (algorithm : String)
    (b1 b2 : Nat) (h1 : 0 < b1) (h2 : 0 < b2) :
    hash_file H file algorithm b1 = hash_file H file algorithm b2 := by
  unfold hash_file
  rw [feedLoop_eq b1 h1, feedLoop_eq b2 h2]

/-- C4 witness: the amended theorem applied at buffer sizes 1 and 2. -/
theorem C4_buffer_size_never_changes_digest_witness :
    0 < 1 ∧ 0 < 2 ∧
      hash_file HLen ⟨"/f", true, [97]⟩ "sha3_256" 1 =
        hash_file HLen ⟨"/f", true, [97]⟩ "sha3_256" 2 :=
  ⟨by decide, by decide,
    C4_buffer_size_never_changes_digest HLen ⟨"/f", true, [97]⟩ "sha3_256"
      1 2 (by decide) (by decide)⟩

/-! ## C6: exactsize validation -/

/-- C6 (code evaluated at the failing input): `findfiles.main` guards the
exact-size handling with `if args.exactsize:`, which is false for the
integer 0.  So `exactsize = 0` combined with `minsize = 5` is accepted
instead of rejected, and `exactsize = 0` alone leaves both bounds unset
instead of setting them to 0 — while any nonzero value behaves as the
claim states. -/
theorem C6_exactsize_zero_truthiness :
    applyExactSize ⟨some 0, some 5, none⟩ =
      Except.ok ⟨some 0, some 5, none⟩ ∧
    applyExactSize ⟨some 0, none, none⟩ =
      Except.ok ⟨some 0, none, none⟩ ∧
    applyExactSize ⟨some 1, some 5, none⟩ =
      Except.error "Cannot use --size with --minsize/--maxsize" ∧
    applyExactSize ⟨some 3, none, none⟩ =
      Except.ok ⟨some 3, some 3, some 3⟩ :=
  ⟨rfl, rfl, rfl, rfl⟩

/-! ## C7: unsupported algorithm handling -/

/-- C7 (counterexample): called with the empty algorithm identifier,
`hash_file` does not fail — `if not algorithm:` silently substitutes the
default `sha3_256` and a digest is returned. -/
theorem C7_empty_algorithm_counterexample :
    hash_file HLen ⟨"/f", true, [97]⟩ "" hash_file_default_buffer_size =
      Except.ok "1" := by
  have h1 : feedLoop hash_file_default_buffer_size [97] = [97] :=
    feedLoop_eq _ (by decide) [97]
  simp [hash_file, h1, HLen, algorithms_available, DEFAULT_ALGORITHM]
  decide

/-- C7 (amended): for every NON-EMPTY algorithm identifier outside the
supported set, `hash_file` fails and never returns a digest — with the
unsupported-algorithm error when the file can be read, and with the read
error (raised by `open` before `hashlib.new` runs) otherwise.  The empty
identifier is instead silently replaced by the default `sha3_256`. -/
theorem C7_unsupported_algorithm_fails
    (H : String → List Nat → String) (file : HashInput) (algorithm : String)
    (buffer_size : Nat) (hne : algorithm ≠ "")
    (hna : algorithm ∉ algorithms_available) :
    hash_file H file algorithm buffer_size =
      (if file.readable then Except.error (HashError.unsupported algorithm)
       else Except.error (HashError.readError file.path)) := by
  unfold hash_file
  cases hr : file.readable <;> simp [hne, hna, hr]

/-- C7 witness: the amended theorem applied to the unsupported name
`"nope"` on a readable and on an unreadable file. -/
theorem C7_unsupported_algorithm_fails_witness :
    ("nope" ≠ "" ∧ "nope" ∉ algorithms_available) ∧
    hash_file HLen ⟨"/f", true, [97]⟩ "nope" 1 =
      Except.error (HashError.unsupported "nope") ∧
    hash_file HLen ⟨"/g", false, [97]⟩ "nope" 1 =
      Except.error (HashError.readError "/g") :=
  ⟨⟨by decide, by decide⟩,
   by
    rw [C7_unsupported_algorithm_fails HLen ⟨"/f", true, [97]⟩ "nope" 1
      (by decide) (by decide)]
    rfl,
   by
    rw [C7_unsupported_algorithm_fails HLen ⟨"/g", false, [97]⟩ "nope" 1
      (by decide) (by decide)]
    rfl⟩

/-! ## Traversal helper lemmas -/

/-- `walk_tree` processes the scanned entries independently: walking a
concatenation of sibling lists concatenates yields and reported errors. -/
theorem walk_tree_append (p : String) (ex : List String) (d s r o : Bool)
    (l₁ l₂ : List FSNode) :
    walk_tree p ex d s r o (l₁ ++ l₂) =
      ((walk_tree p ex d s r o l₁).1 ++ (walk_tree p ex d s r o l₂).1,
       (walk_tree p ex d s r o l₁).2 ++ (walk_tree p ex d s r o l₂).2) := by
  induction l₁ with
  | nil => simp [walk_tree]
  | cons c rest ih =>
    cases c with
    | file nm content lk rd =>
      simp only [List.cons_append, walk_tree]
      split_ifs <;> simp [ih]
    | dir nm lk ok children =>
      simp only [List.cons_append, walk_tree]
      split_ifs <;> simp [ih]

theorem walk_tree_onerror_aux (ex : List String) (d s r o : Bool) :
    ∀ (n : Nat) (l : List FSNode), sizeOf l ≤ n → ∀ (p : String),
      (walk_tree p ex d s r o l).1 = (walk_tree p ex d s r false l).1 ∧
      (walk_tree p ex d s r false l).2 = [] := by
  intro n
  induction n with
  | zero =>
    intro l hl p
    cases l with
    | nil => simp [walk_tree]
    | cons c rest =>
      exact absurd hl (by simp [List.cons.sizeOf_spec]; try omega)
  | succ n ih =>
    intro l hl p
    cases l with
    | nil => simp [walk_tree]
    | cons c rest =>
      cases c with
      | file nm content lk rd =>
        have hr := ih rest
          (by simp [List.cons.sizeOf_spec, FSNode.file.sizeOf_spec] at hl; omega) p
        simp only [walk_tree]
        split_ifs <;> first | contradiction | simp [hr.1, hr.2]
      | dir nm lk ok children =>
        have hr := ih rest
          (by simp [List.cons.sizeOf_spec, FSNode.dir.sizeOf_spec] at hl; omega) p
        have hc := ih children
          (by simp [List.cons.sizeOf_spec, FSNode.dir.sizeOf_spec] at hl; omega)
          (p ++ "/" ++ nm)
        simp only [walk_tree]
        split_ifs <;> first | contradiction | simp [hr.1, hr.2, hc.1, hc.2]

/-- The `onerror` callback only affects the reported errors, never the
yields; and without a callback (`onerror=None`, the default) the list of
delivered errors is empty — every caught scan failure is dropped. -/
theorem walk_tree_onerror_spec (p : String) (ex : List String)
    (d s r o : Bool) (l : List FSNode) :
    (walk_tree p ex d s r o l).1 = (walk_tree p ex d s r false l).1 ∧
    (walk_tree p ex d s r false l).2 = [] :=
  walk_tree_onerror_aux ex d s r o (sizeOf l) l le_rfl p

/-! ## Duplicate-grouping helper lemmas -/

theorem addPair_fst (m : List (String × List String)) (d p : String) :
    (addPair m d p).map Prod.fst =
      if d ∈ m.map Prod.fst then m.map Prod.fst
      else m.map Prod.fst ++ [d] := by
  induction m with
  | nil => simp [addPair]
  | cons kv rest ih =>
    obtain ⟨k, v⟩ := kv
    by_cases h : k = d
    · subst h
      simp [addPair]
    · simp only [addPair, if_neg h, List.map_cons]
      rw [ih]
      by_cases h2 : d ∈ rest.map Prod.fst
      · simp [h2, Ne.symm h]
      · simp [h2, Ne.symm h]

theorem addPair_not_mem (m : List (String × List String)) (d p : String)
    (h : d ∉ m.map Prod.fst) : addPair m d p = m ++ [(d, [p])] := by
  induction m with
  | nil => simp [addPair]
  | cons kv rest ih =>
    obtain ⟨k, v⟩ := kv
    simp only [List.map_cons, List.mem_cons] at h
    push_neg at h
    simp [addPair, Ne.symm h.1, ih h.2]

theorem map_update_not_mem (m : List (String × List String)) (d p : String)
    (h : d ∉ m.map Prod.fst) :
    m.map (fun kv => if kv.1 = d then (kv.1, kv.2 ++ [p]) else kv) = m := by
  induction m with
  | nil => simp
  | cons kv rest ih =>
    obtain ⟨k, v⟩ := kv
    simp only [List.map_cons, List.mem_cons] at h
    push_neg at h
    simp [Ne.symm h.1, ih h.2]

theorem addPair_mem (m : List (String × List String)) (d p : String)
    (hnd : (m.map Prod.fst).Nodup) (h : d ∈ m.map Prod.fst) :
    addPair m d p =
      m.map (fun kv => if kv.1 = d then (kv.1, kv.2 ++ [p]) else kv) := by
  induction m with
  | nil => simp at h
  | cons kv rest ih =>
    obtain ⟨k, v⟩ := kv
    simp only [List.map_cons, List.nodup_cons] at hnd
    by_cases hk : k = d
    · subst hk
      simp [addPair, map_update_not_mem rest k p hnd.1]
    · have h' : d ∈ rest.map Prod.fst := by
        rcases List.mem_cons.mp h with h | h
        · exact absurd h.symm hk
        · exact h
      simp [addPair, hk, ih hnd.2 h']

theorem pathsOf_cons (p d : String) (ps : List (String × String))
    (k : String) :
    pathsOf ((p, d) :: ps) k =
      if d = k then p :: pathsOf ps k else pathsOf ps k := by
  by_cases h : d = k <;> simp [pathsOf, h]

theorem keysOf_nodup (ps : List (String × String)) : (keysOf ps).Nodup := by
  induction ps with
  | nil => simp [keysOf]
  | cons q rest ih =>
    obtain ⟨p, d⟩ := q
    simp only [keysOf, List.nodup_cons]
    constructor
    · intro hmem
      have := List.of_mem_filter hmem
      simp at this
    · exact ih.filter _

theorem filter_not_mem_snoc (l keys : List String) (d : String) :
    l.filter (fun k => decide (k ∉ keys ++ [d])) =
      (l.filter (fun k => decide (¬ k = d))).filter
        (fun k => decide (k ∉ keys)) := by
  rw [List.filter_filter]
  apply List.filter_congr
  intro k _
  by_cases h1 : k = d
  · simp [h1]
  · by_cases h2 : k ∈ keys <;> simp [h1, h2]

theorem filter_not_mem_of_mem (l keys : List String) (d : String)
    (hd : d ∈ keys) :
    (l.filter (fun k => decide (¬ k = d))).filter
        (fun k => decide (k ∉ keys)) =
      l.filter (fun k => decide (k ∉ keys)) := by
  rw [List.filter_filter]
  apply List.filter_congr
  intro k _
  by_cases hk : k ∈ keys
  · simp [hk]
  · have : ¬ k = d := fun hh => hk (hh ▸ hd)
    simp [hk, this]

/-- The central characterization of the `find_dupes` accumulation loop:
starting from an accumulator with distinct keys, it extends every existing
key's path list with that digest's new paths, and appends the remaining
digests in order of first occurrence, each with its paths in input
order. -/
theorem groupPairs_eq (ps : List (String × String)) :
    ∀ m, (m.map Prod.fst).Nodup →
      groupPairs ps m =
        m.map (fun kv => (kv.1, kv.2 ++ pathsOf ps kv.1)) ++
          ((keysOf ps).filter (fun k => decide (k ∉ m.map Prod.fst))).map
            (fun k => (k, pathsOf ps k)) := by
  induction ps with
  | nil =>
    intro m hm
    simp [groupPairs, pathsOf, keysOf]
  | cons q rest ih =>
    obtain ⟨p, d⟩ := q
    intro m hm
    show groupPairs rest (addPair m d p) = _
    by_cases hd : d ∈ m.map Prod.fst
    · have hkeys : (addPair m d p).map Prod.fst = m.map Prod.fst := by
        rw [addPair_fst]; simp [hd]
      have hnd' : ((addPair m d p).map Prod.fst).Nodup := by
        rw [hkeys]; exact hm
      have hkeys2 :
          (m.map (fun kv => if kv.1 = d then (kv.1, kv.2 ++ [p]) else kv)).map
            Prod.fst = m.map Prod.fst := by
        rw [List.map_map]
        apply List.map_congr_left
        intro kv _
        by_cases hk : kv.1 = d <;> simp [hk]
      rw [ih (addPair m d p) hnd']
      simp only [addPair_mem m d p hm hd, hkeys2]
      congr 1
      · rw [List.map_map]
        apply List.map_congr_left
        intro kv hkv
        by_cases hk : kv.1 = d
        · simp [Function.comp, hk, pathsOf_cons]
        · simp [Function.comp, hk, pathsOf_cons, Ne.symm hk]
      · simp only [keysOf]
        rw [List.filter_cons_of_neg (by simp [hd])]
        rw [filter_not_mem_of_mem _ _ _ hd]
        apply List.map_congr_left
        intro k hk
        have hkm : k ∉ m.map Prod.fst := by
          have := List.of_mem_filter hk
          simpa using this
        have : ¬ d = k := fun hh => hkm (hh ▸ hd)
        simp [pathsOf_cons, this]
    · have hA := addPair_not_mem m d p hd
      have hkeys : (addPair m d p).map Prod.fst = m.map Prod.fst ++ [d] := by
        rw [addPair_fst]; simp [hd]
      have hnd' : ((addPair m d p).map Prod.fst).Nodup := by
        rw [hkeys]
        simp [List.nodup_append, hm, hd]
      have hkeys2 : (m ++ [(d, [p])]).map Prod.fst =
          m.map Prod.fst ++ [d] := by simp
      rw [ih (addPair m d p) hnd']
      simp only [hA, hkeys2]
      rw [List.map_append, List.append_assoc]
      congr 1
      · apply List.map_congr_left
        intro kv hkv
        have hne : ¬ d = kv.1 :=
          fun hh => hd (hh ▸ List.mem_map_of_mem Prod.fst hkv)
        simp [pathsOf_cons, hne]
      · simp only [keysOf]
        rw [List.filter_cons_of_pos (by simp [hd])]
        rw [filter_not_mem_snoc]
        simp only [List.map_cons, List.map_nil, List.singleton_append]
        congr 1
        · simp [pathsOf_cons]
        · apply List.map_congr_left
          intro k hk
          have : ¬ d = k := by
            have := List.of_mem_filter (List.mem_of_mem_filter hk)
            simp at this
            exact fun hh => this (hh.symm)
          simp [pathsOf_cons, this]

theorem dupesLoop_ok (H : String → List Nat → String) (alg : String)
    (halg : alg ∈ algorithms_available) :
    ∀ (entries : List Entry) (m : List (String × List String)),
      dupesLoop H alg entries m =
        Except.ok (groupPairs (digestPairs H alg entries) m) := by
  have hne : ¬ alg = "" := by rintro rfl; revert halg; decide
  intro entries
  induction entries with
  | nil => intro m; simp [dupesLoop, digestPairs, groupPairs]
  | cons e rest ih =>
    intro m
    cases hr : e.readable with
    | false =>
      have hh : hash_file H ⟨e.path, e.readable, e.content⟩ alg
          hash_file_default_buffer_size =
          Except.error (HashError.readError e.path) := by
        simp [hash_file, hr]
      simp only [dupesLoop, hh]
      rw [ih m]
      have hdp : digestPairs H alg (e :: rest) = digestPairs H alg rest := by
        simp [digestPairs, hr]
      rw [hdp]
    | true =>
      have hh : hash_file H ⟨e.path, e.readable, e.content⟩ alg
          hash_file_default_buffer_size =
          Except.ok (H alg e.content) := by
        simp [hash_file, hr, hne, halg,
          feedLoop_eq hash_file_default_buffer_size (by decide)]
      simp only [dupesLoop, hh]
      rw [ih (addPair m (H alg e.content) e.path)]
      have hdp : digestPairs H alg (e :: rest) =
          (e.path, H alg e.content) :: digestPairs H alg rest := by
        simp [digestPairs, hr]
      rw [hdp]
      rfl

/-- `find_dupes` with a supported algorithm: the result is exactly the
first-occurrence-ordered association of digests with their traversal-order
path lists, restricted to digests carrying at least two paths. -/
theorem find_dupes_ok (H : String → List Nat → String) (directory : String)
    (root : List FSNode) (algorithm : String) (ex : List String)
    (d s : Bool)
    (halg : (if algorithm = "" then DEFAULT_ALGORITHM else algorithm) ∈
      algorithms_available) :
    find_dupes H directory root algorithm ex d s =
      Except.ok
        (((keysOf (digestPairs H
              (if algorithm = "" then DEFAULT_ALGORITHM else algorithm)
              (walk_tree directory ex d s true false root).1)).map
            (fun k => (k, pathsOf (digestPairs H
              (if algorithm = "" then DEFAULT_ALGORITHM else algorithm)
              (walk_tree directory ex d s true false root).1) k))).filter
          (fun kv => kv.2.length > 1)) := by
  unfold find_dupes
  dsimp only
  rw [dupesLoop_ok H _ halg]
  rw [groupPairs_eq _ [] (by simp)]
  simp

/-! ## Concrete evaluation helpers -/

theorem walk_badSubdirTree_files :
    (walk_tree "/r" [] false false true false badSubdirTree).1 =
      [⟨"/r/x", [0], true⟩, ⟨"/r/y", [0], true⟩] := by
  simp +decide [walk_tree, badSubdirTree]

theorem find_dupes_badSubdirTree :
    find_dupes HLen "/r" badSubdirTree "sha3_256" [] false false =
      Except.ok [("1", ["/r/x", "/r/y"])] := by
  rw [find_dupes_ok HLen "/r" badSubdirTree "sha3_256" [] false false
    (by decide)]
  simp only [walk_badSubdirTree_files]
  refine congrArg Except.ok ?_
  decide

theorem walk_helloTree_files :
    (walk_tree "/r" [] false false true false helloTree).1 =
      [⟨"/r/a.txt", [5], true⟩, ⟨"/r/b.txt", [5], true⟩,
       ⟨"/r/c.txt", [7, 7], true⟩] := by
  simp +decide [walk_tree, helloTree]

theorem find_dupes_helloTree :
    find_dupes HLen "/r" helloTree "sha3_256" [] false false =
      Except.ok [("1", ["/r/a.txt", "/r/b.txt"])] := by
  rw [find_dupes_ok HLen "/r" helloTree "sha3_256" [] false false
    (by decide)]
  simp only [walk_helloTree_files]
  refine congrArg Except.ok ?_
  decide

/-! ## C2: traversal order -/

/-- C2 (counterexample): with recursion enabled, `walk_tree` does NOT
yield a directory's own files before its subdirectories' files.  On a root
whose scan lists subdirectory `d` (holding file `a`) before the root's own
file `b`, the walk yields `/r/d/a` first and the root's own file `/r/b`
second, because the code descends into a directory the moment it is
encountered (findfiles.py lines 85-87). -/
theorem C2_subdir_file_before_own_file_counterexample :
    (walk_tree "/r" [] false false true false dirBeforeFileTree).1.map
      Entry.path = ["/r/d/a", "/r/b"] := by
  simp +decide [walk_tree, dirBeforeFileTree]

/-- C2 (amended): `walk_tree` processes the scanned entries in scan order
and descends into a non-skipped subdirectory immediately upon
encountering it: all files below that subdirectory are yielded before
anything from the remaining sibling entries — regardless of whether those
siblings are the directory's own regular files. -/
theorem C2_descends_immediately (path : String) (ex : List String)
    (d s o : Bool) (nm : String) (lk : Bool)
    (children rest : List FSNode)
    (h1 : ¬(¬ d = true ∧ startsWithDot nm = true))
    (h2 : ¬(path ++ "/" ++ nm ∈ ex ∨ nm ∈ ex))
    (h3 : ¬(lk = true ∧ ¬ s = true)) :
    walk_tree path ex d s true o (FSNode.dir nm lk true children :: rest) =
      ((walk_tree (path ++ "/" ++ nm) ex d s true o children).1 ++
         (walk_tree path ex d s true o rest).1,
       (walk_tree (path ++ "/" ++ nm) ex d s true o children).2 ++
         (walk_tree path ex d s true o rest).2) := by
  simp only [walk_tree]
  rw [if_neg h1, if_neg h2, if_neg h3]
  simp

/-- C2 witness: the amended theorem applied to the concrete tree with
subdirectory `d` listed before file `b`. -/
theorem C2_descends_immediately_witness :
    (¬(¬ false = true ∧ startsWithDot "d" = true)) ∧
    walk_tree "/r" [] false false true false
        (FSNode.dir "d" false true [FSNode.file "a" [1] false true] ::
          [FSNode.file "b" [2] false true]) =
      ((walk_tree ("/r" ++ "/" ++ "d") [] false false true false
          [FSNode.file "a" [1] false true]).1 ++
         (walk_tree "/r" [] false false true false
          [FSNode.file "b" [2] false true]).1,
       (walk_tree ("/r" ++ "/" ++ "d") [] false false true false
          [FSNode.file "a" [1] false true]).2 ++
         (walk_tree "/r" [] false false true false
          [FSNode.file "b" [2] false true]).2) :=
  ⟨by decide,
   C2_descends_immediately "/r" [] false false false "d" false
     [FSNode.file "a" [1] false true] [FSNode.file "b" [2] false true]
     (by decide) (by decide) (by decide)⟩

/-! ## C3: observability of swallowed errors -/

/-- C3 (counterexample): a path-level scan failure CAN be lost silently.
On a tree with an unscannable subdirectory `bad`, a walk with an `onerror`
callback delivers the error `/r/bad`, but with the default `onerror=None`
nothing is delivered — and `find_dupes`, which passes no callback,
completes with an ordinary duplicate mapping and no trace of the
failure. -/
theorem C3_silent_error_loss_counterexample :
    (walk_tree "/r" [] false false true true badSubdirTree).2 =
      ["/r/bad"] ∧
    (walk_tree "/r" [] false false true false badSubdirTree).2 = [] ∧
    find_dupes HLen "/r" badSubdirTree "sha3_256" [] false false =
      Except.ok [("1", ["/r/x", "/r/y"])] := by
  refine ⟨?_, ?_, ?_⟩
  · simp +decide [walk_tree, badSubdirTree]
  · simp +decide [walk_tree, badSubdirTree]
  · exact find_dupes_badSubdirTree

/-- C3 (amended): a swallowed scan failure is observable only when an
`onerror` callback is supplied.  With the default `onerror=None` — in
particular in `find_dupes`, which calls `walk_tree` without a callback —
the delivered-error list is always empty, while the yielded files are
unaffected by the callback's presence. -/
theorem C3_errors_lost_without_callback (p : String) (ex : List String)
    (d s r o : Bool) (l : List FSNode) :
    (walk_tree p ex d s r false l).2 = [] ∧
    (walk_tree p ex d s r o l).1 = (walk_tree p ex d s r false l).1 :=
  ⟨(walk_tree_onerror_spec p ex d s r o l).2,
   (walk_tree_onerror_spec p ex d s r o l).1⟩

/-! ## C5: containment of directory scan failures -/

/-- C5: a subdirectory whose scan fails is caught at its own level: the
walk records the failure (delivered to `onerror` when a callback is
present), continues with the following siblings, and yields exactly the
files of the surrounding entries — the failure never aborts the walk. -/
theorem C5_scan_failure_is_contained (path : String) (ex : List String)
    (d s o : Bool) (nm : String) (lk : Bool)
    (children before after : List FSNode)
    (h1 : ¬(¬ d = true ∧ startsWithDot nm = true))
    (h2 : ¬(path ++ "/" ++ nm ∈ ex ∨ nm ∈ ex))
    (h3 : ¬(lk = true ∧ ¬ s = true)) :
    walk_tree path ex d s true o
        (before ++ FSNode.dir nm lk false children :: after) =
      ((walk_tree path ex d s true o before).1 ++
         (walk_tree path ex d s true o after).1,
       (walk_tree path ex d s true o before).2 ++
         ((if o then [path ++ "/" ++ nm] else []) ++
           (walk_tree path ex d s true o after).2)) := by
  rw [walk_tree_append]
  simp only [walk_tree]
  rw [if_neg h1, if_neg h2, if_neg h3]
  simp

/-- C5 witness: the theorem applied to the concrete tree whose
subdirectory `bad` fails to scan, between files `x` and `y`, with an
`onerror` callback present. -/
theorem C5_scan_failure_is_contained_witness :
    (¬(¬ false = true ∧ startsWithDot "bad" = true)) ∧
    walk_tree "/r" [] false false true true
        ([FSNode.file "x" [0] false true] ++
          FSNode.dir "bad" false false [FSNode.file "inner" [1] false true] ::
          [FSNode.file "y" [0] false true]) =
      ((walk_tree "/r" [] false false true true
          [FSNode.file "x" [0] false true]).1 ++
         (walk_tree "/r" [] false false true true
          [FSNode.file "y" [0] false true]).1,
       (walk_tree "/r" [] false false true true
          [FSNode.file "x" [0] false true]).2 ++
         ((if true then ["/r" ++ "/" ++ "bad"] else []) ++
           (walk_tree "/r" [] false false true true
            [FSNode.file "y" [0] false true]).2)) :=
  ⟨by decide,
   C5_scan_failure_is_contained "/r" [] false false true "bad" false
     [FSNode.file "inner" [1] false true]
     [FSNode.file "x" [0] false true] [FSNode.file "y" [0] false true]
     (by decide) (by decide) (by decide)⟩

/-! ## C8: dotfiles defaults -/

/-- C8 (counterexample): `find_files` does NOT default the dotfiles
setting to false: its declared default is `dotfiles=True`, so calling it
without the argument yields the hidden file `.secret` that an explicit
`dotfiles=False` call omits. -/
theorem C8_find_files_default_counterexample :
    find_files "/r" dotfileTree none [] none none false
        find_files_default_dotfiles false true =
      ["/r/.secret", "/r/visible.txt"] ∧
    find_files "/r" dotfileTree none [] none none false false false true =
      ["/r/visible.txt"] ∧
    find_files "/r" dotfileTree none [] none none false
        find_files_default_dotfiles false true ≠
      find_files "/r" dotfileTree none [] none none false false false true := by
  refine ⟨?_, ?_, ?_⟩
  · simp +decide [find_files, find_files_default_dotfiles, walk_tree,
      dotfileTree]
  · simp +decide [find_files, walk_tree, dotfileTree]
  · intro h
    rw [show find_files "/r" dotfileTree none [] none none false
          find_files_default_dotfiles false true =
        ["/r/.secret", "/r/visible.txt"] by
      simp +decide [find_files, find_files_default_dotfiles, walk_tree,
        dotfileTree]] at h
    rw [show find_files "/r" dotfileTree none [] none none false false
          false true = ["/r/visible.txt"] by
      simp +decide [find_files, walk_tree, dotfileTree]] at h
    simp at h

/-- C8 (amended): `walk_tree` and `find_dupes` default the dotfiles
setting to false, and `hash_dir`'s internal `walk_tree` call leaves it at
that default; calling them with their default behaves as dotfiles
disabled.  `find_files`, however, defaults it to TRUE: calling it without
the argument behaves as dotfiles enabled. -/
theorem C8_dotfiles_defaults :
    walk_tree_default_dotfiles = false ∧
    find_dupes_default_dotfiles = false ∧
    find_files_default_dotfiles = true ∧
    (∀ p ex s r o l, walk_tree p ex walk_tree_default_dotfiles s r o l =
      walk_tree p ex false s r o l) ∧
    (∀ H dir root alg ex s,
      find_dupes H dir root alg ex find_dupes_default_dotfiles s =
        find_dupes H dir root alg ex false s) ∧
    (∀ p root pat ex mn mx o s r,
      find_files p root pat ex mn mx o find_files_default_dotfiles s r =
        find_files p root pat ex mn mx o true s r) ∧
    (∀ H p root alg r, hash_dir H p root alg r =
      (walk_tree p [] walk_tree_default_dotfiles false r false root).1.map
        (fun e => (e.path,
          hash_file H ⟨e.path, e.readable, e.content⟩ alg
            hash_file_default_buffer_size))) :=
  ⟨rfl, rfl, rfl, fun _ _ _ _ _ _ => rfl, fun _ _ _ _ _ _ => rfl,
   fun _ _ _ _ _ _ _ _ _ => rfl, fun _ _ _ _ _ => rfl⟩

/-! ## C9: dot-named entries are skipped -/

/-- C9: with dotfiles disabled, an entry whose name starts with a dot is
skipped entirely by `walk_tree`: walking it at the head of a sibling list
is the same as walking the remaining siblings — a dot file is never
yielded and a dot directory is never descended into. -/
theorem C9_dot_entries_skipped (path : String) (ex : List String)
    (s r o : Bool) (c : FSNode) (rest : List FSNode)
    (h : startsWithDot c.name = true) :
    walk_tree path ex false s r o (c :: rest) =
      walk_tree path ex false s r o rest := by
  cases c <;> simp_all [walk_tree, FSNode.name]

/-- C9 witness: the theorem applied to the hidden file `.secret` next to
`visible.txt`; only the visible file is yielded. -/
theorem C9_dot_entries_skipped_witness :
    startsWithDot (FSNode.file ".secret" [9] false true).name = true ∧
    walk_tree "/r" [] false false true false dotfileTree =
      walk_tree "/r" [] false false true false
        [FSNode.file "visible.txt" [1] false true] :=
  ⟨by decide,
   C9_dot_entries_skipped "/r" [] false true false
     (FSNode.file ".secret" [9] false true)
     [FSNode.file "visible.txt" [1] false true] (by decide)⟩

/-! ## C10: ordering of the duplicate mapping -/

/-- C10: for a supported algorithm, `find_dupes` preserves discovery
order: each group's paths appear in exactly the traversal order in which
they were hashed (`pathsOf` keeps the pair order), and the digest keys
appear in order of first encounter (`keysOf`), restricted to digests with
two or more paths.  No sorting is applied anywhere. -/
theorem C10_find_dupes_discovery_order (H : String → List Nat → String)
    (directory : String) (root : List FSNode) (algorithm : String)
    (ex : List String) (d s : Bool)
    (halg : (if algorithm = "" then DEFAULT_ALGORITHM else algorithm) ∈
      algorithms_available) :
    find_dupes H directory root algorithm ex d s =
      Except.ok
        (((keysOf (digestPairs H
              (if algorithm = "" then DEFAULT_ALGORITHM else algorithm)
              (walk_tree directory ex d s true false root).1)).map
            (fun k => (k, pathsOf (digestPairs H
              (if algorithm = "" then DEFAULT_ALGORITHM else algorithm)
              (walk_tree directory ex d s true false root).1) k))).filter
          (fun kv => kv.2.length > 1)) :=
  find_dupes_ok H directory root algorithm ex d s halg

/-- C10 witness: the theorem applied to the concrete tree with two equal
files and one distinct file, under the length-digest family. -/
theorem C10_find_dupes_discovery_order_witness :
    "sha3_256" ∈ algorithms_available ∧
    find_dupes HLen "/r" helloTree "sha3_256" [] false false =
      Except.ok
        (((keysOf (digestPairs HLen "sha3_256"
              (walk_tree "/r" [] false false true false helloTree).1)).map
            (fun k => (k, pathsOf (digestPairs HLen "sha3_256"
              (walk_tree "/r" [] false false true false helloTree).1) k))).filter
          (fun kv => kv.2.length > 1)) :=
  ⟨by decide,
   C10_find_dupes_discovery_order HLen "/r" helloTree "sha3_256" [] false
     false (by decide)⟩

/-! ## C1: correctness of the duplicate mapping -/

/-- C1: for a supported algorithm, whenever `find_dupes` returns a
mapping, every group has at least two paths, every path in a group was
hashed to exactly the group's digest key, the digest keys of distinct
groups are pairwise distinct, and a digest carried by exactly one path
never appears as a group key. -/
theorem C1_find_dupes_groups (H : String → List Nat → String)
    (directory : String) (root : List FSNode) (algorithm : String)
    (ex : List String) (d s : Bool) (m : List (String × List String))
    (halg : (if algorithm = "" then DEFAULT_ALGORITHM else algorithm) ∈
      algorithms_available)
    (hok : find_dupes H directory root algorithm ex d s = Except.ok m) :
    (∀ kv ∈ m, 2 ≤ kv.2.length) ∧
    (∀ kv ∈ m, ∀ q ∈ kv.2, (q, kv.1) ∈ digestPairs H
      (if algorithm = "" then DEFAULT_ALGORITHM else algorithm)
      (walk_tree directory ex d s true false root).1) ∧
    (m.map Prod.fst).Nodup ∧
    (∀ pr ∈ digestPairs H
        (if algorithm = "" then DEFAULT_ALGORITHM else algorithm)
        (walk_tree directory ex d s true false root).1,
      (pathsOf (digestPairs H
        (if algorithm = "" then DEFAULT_ALGORITHM else algorithm)
        (walk_tree directory ex d s true false root).1) pr.2).length = 1 →
      pr.2 ∉ m.map Prod.fst) := by
  rw [find_dupes_ok H directory root algorithm ex d s halg] at hok
  injection hok with hok
  subst hok
  refine ⟨?_, ?_, ?_, ?_⟩
  · intro kv hkv
    have h := (List.mem_filter.mp hkv).2
    have h2 : kv.2.length > 1 := of_decide_eq_true h
    omega
  · intro kv hkv q hq
    obtain ⟨k, hk, rfl⟩ := List.mem_map.mp (List.mem_filter.mp hkv).1
    simp only [pathsOf, List.mem_map] at hq
    obtain ⟨pr, hpr, rfl⟩ := hq
    have hm := List.mem_filter.mp hpr
    have heq : pr.2 = k := of_decide_eq_true hm.2
    have : pr = (pr.1, k) := by rw [← heq]
    rw [← this]
    exact hm.1
  · have hs : ((((keysOf (digestPairs H
        (if algorithm = "" then DEFAULT_ALGORITHM else algorithm)
        (walk_tree directory ex d s true false root).1)).map
          (fun k => (k, pathsOf (digestPairs H
        (if algorithm = "" then DEFAULT_ALGORITHM else algorithm)
            (walk_tree directory ex d s true false root).1) k))).filter
        (fun kv => kv.2.length > 1)).map Prod.fst).Sublist
        ((((keysOf (digestPairs H
        (if algorithm = "" then DEFAULT_ALGORITHM else algorithm)
          (walk_tree directory ex d s true false root).1)).map
            (fun k => (k, pathsOf (digestPairs H
        (if algorithm = "" then DEFAULT_ALGORITHM else algorithm)
              (walk_tree directory ex d s true false root).1) k))).map
          Prod.fst)) :=
      (List.filter_sublist _).map Prod.fst
    have heq : (((keysOf (digestPairs H
        (if algorithm = "" then DEFAULT_ALGORITHM else algorithm)
        (walk_tree directory ex d s true false root).1)).map
          (fun k => (k, pathsOf (digestPairs H
        (if algorithm = "" then DEFAULT_ALGORITHM else algorithm)
            (walk_tree directory ex d s true false root).1) k))).map
        Prod.fst) = keysOf (digestPairs H
        (if algorithm = "" then DEFAULT_ALGORITHM else algorithm)
          (walk_tree directory ex d s true false root).1) := by
      rw [List.map_map]
      exact List.map_id _
    exact (heq ▸ hs).nodup (keysOf_nodup _)
  · intro pr hpr hlen hmem
    obtain ⟨kv, hkv, hfst⟩ := List.mem_map.mp hmem
    have h1 := List.mem_filter.mp hkv
    obtain ⟨k, hk, rfl⟩ := List.mem_map.mp h1.1
    have hlen2 : (k, pathsOf (digestPairs H
        (if algorithm = "" then DEFAULT_ALGORITHM else algorithm)
      (walk_tree directory ex d s true false root).1) k).2.length > 1 :=
      of_decide_eq_true h1.2
    simp only at hfst hlen2
    rw [hfst] at hlen2
    rw [hlen] at hlen2
    omega

/-- C1 witness: the theorem applied to the concrete tree with two equal
files and one distinct file: the returned mapping is the single group
`("1", [/r/a.txt, /r/b.txt])` and it satisfies all four properties. -/
theorem C1_find_dupes_groups_witness :
    ("sha3_256" ∈ algorithms_available ∧
     find_dupes HLen "/r" helloTree "sha3_256" [] false false =
       Except.ok [("1", ["/r/a.txt", "/r/b.txt"])]) ∧
    ((∀ kv ∈ [("1", ["/r/a.txt", "/r/b.txt"])], 2 ≤ kv.2.length) ∧
     (∀ kv ∈ [("1", ["/r/a.txt", "/r/b.txt"])], ∀ q ∈ kv.2,
       (q, kv.1) ∈ digestPairs HLen "sha3_256"
         (walk_tree "/r" [] false false true false helloTree).1) ∧
     (([("1", ["/r/a.txt", "/r/b.txt"])].map
        (Prod.fst (α := String) (β := List String))).Nodup) ∧
     (∀ pr ∈ digestPairs HLen "sha3_256"
         (walk_tree "/r" [] false false true false helloTree).1,
       (pathsOf (digestPairs HLen "sha3_256"
         (walk_tree "/r" [] false false true false helloTree).1)
           pr.2).length = 1 →
       pr.2 ∉ [("1", ["/r/a.txt", "/r/b.txt"])].map Prod.fst)) :=
  ⟨⟨by decide, find_dupes_helloTree⟩,
   C1_find_dupes_groups HLen "/r" helloTree "sha3_256" [] false false
     [("1", ["/r/a.txt", "/r/b.txt"])] (by decide) find_dupes_helloTree⟩

end Fileutils
